import Mathlib

/-!
Verification of the secret-sync reconciliation engine.

This file shallowly embeds the Go packages `pkg/secret`, `pkg/helper` and
`pkg/vault` of the secret-sync repository and proves properties of the
embedded functions.  Conventions of the embedding:

* Go `map[string]interface{}` values are modelled as association lists
  `GoMap := List (String × GoVal)` with first-binding-wins lookup
  (`mapGet`).  The dynamic values are modelled by the sum type `GoVal` of
  the JSON scalars the tool actually moves between stores; the repository
  code never inspects the structure of a value (it only uses `==`,
  `reflect.DeepEqual`, `fmt.Sprintf %v` and a JSON round trip), and
  `GoVal.vFloat` models an integral-valued `float64` as produced by
  `encoding/json` unmarshalling of a number.
* A nil pointer `*Environment` is `Option Environment`; Go struct
  equality `==` is structural equality of the `Environment` structure.
* Mutating methods on `*Secret` become functions returning the updated
  secret.
* `strings.Split`, `strings.TrimSuffix` are re-implemented over the
  character list of the string (`goSplit`, `goTrimSuffix`) with the exact
  Go behaviour; the names handled by the tool are ASCII paths, for which
  Go's byte indexing and character indexing agree.
-/

namespace SecretSync

/-- Model of a Go `interface{}` value as stored in secret data/tags: the
JSON scalars.  `vFloat n` is the `float64` with integral value `n` (the
type `encoding/json` unmarshals a whole number to). -/
inductive GoVal where
  | vNull : GoVal
  | vBool : Bool → GoVal
  | vInt : Int → GoVal
  | vFloat : Int → GoVal
  | vStr : String → GoVal
deriving DecidableEq, Repr

/-- Model of a Go `map[string]interface{}` as an association list. -/
abbrev GoMap := List (String × GoVal)

/-- Go map lookup `m[k]`: the first binding of `k`, if any. -/
def mapGet (m : GoMap) (k : String) : Option GoVal :=
  match m with
  | [] => none
  | p :: rest => if p.1 = k then some p.2 else mapGet rest k

/-- Go map assignment `m[k] = v`: replaces any binding of `k`. -/
def mapInsert (m : GoMap) (k : String) (v : GoVal) : GoMap :=
  (List.filter (fun p => decide (p.1 ≠ k)) m) ++ [(k, v)]

/-- `reflect.DeepEqual` on two `map[string]interface{}` values: equality as
maps, i.e. the lookups agree on every key occurring in either map. -/
def mapEq (m1 m2 : GoMap) : Bool :=
  (List.all m1 fun p => decide (mapGet m1 p.1 = mapGet m2 p.1)) &&
  (List.all m2 fun p => decide (mapGet m1 p.1 = mapGet m2 p.1))

/-- One value after the `json.Marshal` / `json.Unmarshal` round trip used
by `helper.DeepEqual`: unmarshalling into `interface{}` turns every JSON
number into a `float64`, so a Go `int` comes back as the float of the same
value; all other scalars are unchanged. -/
def normVal : GoVal → GoVal
  | GoVal.vInt n => GoVal.vFloat n
  | v => v

/-- A map after the JSON round trip: every value is type-unified by
`normVal` (marshalling a Go map writes each key once, and unmarshalling
rebuilds the map, so the bindings keep their keys). -/
def normMap (m : GoMap) : GoMap :=
  m.map (fun p => (p.1, normVal p.2))

/-- Embedding of `helper.DeepEqual`: first `reflect.DeepEqual` on the raw
maps, then, if that fails, `reflect.DeepEqual` after marshalling and
unmarshalling both maps. -/
def DeepEqual (m1 m2 : GoMap) : Bool :=
  if mapEq m1 m2 then true
  else if mapEq (normMap m1) (normMap m2) then true
  else false

/-- `fmt.Sprintf "%v"` on a stored value. -/
def GoVal.toGoString : GoVal → String
  | GoVal.vNull => "<nil>"
  | GoVal.vBool b => if b then "true" else "false"
  | GoVal.vInt n => toString n
  | GoVal.vFloat n => toString n
  | GoVal.vStr s => s

/-- Embedding of `secret.Environment`. -/
structure Environment where
  Name : String
  Production : Bool
  IsGroup : Bool
deriving DecidableEq, Repr

def DevEnv : Environment := { Name := "dev", Production := false, IsGroup := false }
def TestEnv : Environment := { Name := "test", Production := false, IsGroup := false }
def StagingEnv : Environment := { Name := "staging", Production := false, IsGroup := false }
def ProdEnv : Environment := { Name := "prod", Production := true, IsGroup := false }
def NonprodEnv : Environment := { Name := "nonprod", Production := false, IsGroup := true }
def GlobalEnv : Environment := { Name := "global", Production := true, IsGroup := true }

/-- Embedding of `secret.Secret`.  The nilable `*Environment` field is an
`Option`. -/
structure Secret where
  Name : String
  Data : GoMap
  Environment : Option Environment
  Tags : GoMap
deriving DecidableEq, Repr

/-- `secret.New`: a secret with empty data and tags. -/
def New (name : String) : Secret :=
  { Name := name, Data := [], Environment := none, Tags := [] }

/-- `Secret.AddData`: copy every binding of `data` into the secret's data. -/
def Secret.AddData (s : Secret) (data : GoMap) : Secret :=
  { s with Data := data.foldl (fun m kv => mapInsert m kv.1 kv.2) s.Data }

/-- `Secret.AddTags`: copy every binding of `tags` into the secret's tags. -/
def Secret.AddTags (s : Secret) (tags : GoMap) : Secret :=
  { s with Tags := tags.foldl (fun m kv => mapInsert m kv.1 kv.2) s.Tags }

/-- `Secret.BelongsToEnv`: whether the secret's environment belongs to the
target environment `env`.  Both sides are nilable. -/
def Secret.BelongsToEnv (s : Secret) (env : Option SecretSync.Environment) : Bool :=
  match env, s.Environment with
  | none, _ => false
  | _, none => false
  | some systemEnv, some secretEnv =>
    if secretEnv = systemEnv then true
    else if secretEnv = GlobalEnv ∨ systemEnv = GlobalEnv then true
    else if (!secretEnv.Production && decide (systemEnv = NonprodEnv)) ||
            (decide (secretEnv = NonprodEnv) && !systemEnv.Production) then true
    else false

/-- `Secret.ContainsTag`: the tags hold a non-nil value for `key`. -/
def Secret.ContainsTag (s : Secret) (key : String) : Bool :=
  match mapGet s.Tags key with
  | some v => decide (v ≠ GoVal.vNull)
  | none => false

/-- `Secret.ContainsTagWithValue`: Go `s.Tags[key] == val`, where a missing
key reads as the nil interface value. -/
def Secret.ContainsTagWithValue (s : Secret) (key : String) (val : GoVal) : Bool :=
  if (mapGet s.Tags key).getD GoVal.vNull = val then true else false

/-- `Secret.EqualName`. -/
def Secret.EqualName (s o : Secret) : Bool := decide (s.Name = o.Name)

/-- `Secret.EqualData`. -/
def Secret.EqualData (s o : Secret) : Bool := DeepEqual s.Data o.Data

/-- `Secret.EqualTags`. -/
def Secret.EqualTags (s o : Secret) : Bool := DeepEqual s.Tags o.Tags

/-- `Secret.Equal`. -/
def Secret.Equal (s o : Secret) : Bool :=
  s.EqualName o && s.EqualData o && s.EqualTags o

/-- Go `strings.Split(s, sep)` for a one-character separator, over the
character list. -/
def splitOnCharAux (sep : Char) : List Char → List Char → List (List Char)
  | [], acc => [acc.reverse]
  | c :: rest, acc =>
    if c = sep then acc.reverse :: splitOnCharAux sep rest []
    else splitOnCharAux sep rest (c :: acc)

/-- Go `strings.Split` with a one-character separator. -/
def goSplit (s : String) (sep : Char) : List String :=
  (splitOnCharAux sep s.data []).map (fun l => String.mk l)

/-- Go `strings.HasSuffix`. -/
def goHasSuffix (s suffix : String) : Bool :=
  List.isPrefixOf suffix.data.reverse s.data.reverse

/-- Go `strings.TrimSuffix`: drop `suffix` from the end of `s` once, if
present. -/
def goTrimSuffix (s suffix : String) : String :=
  if goHasSuffix s suffix then
    String.mk (s.data.take (s.data.length - suffix.data.length))
  else s

/-- `secret.GetEnvFromString`: look a name up among the six fixed
environments. -/
def GetEnvFromString (env : String) : Option Environment :=
  if env = DevEnv.Name then some DevEnv
  else if env = TestEnv.Name then some TestEnv
  else if env = StagingEnv.Name then some StagingEnv
  else if env = ProdEnv.Name then some ProdEnv
  else if env = GlobalEnv.Name then some GlobalEnv
  else if env = NonprodEnv.Name then some NonprodEnv
  else none

/-- `Secret.GetEnvFromName`: if splitting the name on `-` yields more than
one segment, look the last segment up; otherwise look up the empty
string. -/
def Secret.GetEnvFromName (s : Secret) : Option SecretSync.Environment :=
  let nameSplit := goSplit s.Name '-'
  let env := if nameSplit.length > 1 then nameSplit.getLastD "" else ""
  GetEnvFromString env

/-- `Secret.GetTagValue`: the stringified value of the tag, or the empty
string when the tag is missing or nil. -/
def Secret.GetTagValue (s : Secret) (key : String) : String :=
  if s.ContainsTag key then ((mapGet s.Tags key).getD GoVal.vNull).toGoString
  else ""

/-- `Secret.GetEnvFromTags`: look the stringified `Environment` tag up. -/
def Secret.GetEnvFromTags (s : Secret) : Option SecretSync.Environment :=
  GetEnvFromString (s.GetTagValue "Environment")

/-- `Secret.GetEnv`: the environment from `s.Environment`, the name
suffix, and the tags, in that order. -/
def Secret.GetEnv (s : Secret) : Option SecretSync.Environment :=
  match s.Environment with
  | some e => some e
  | none =>
    match s.GetEnvFromName with
    | some e => some e
    | none => s.GetEnvFromTags

/-- `Secret.SetEnv`: store the resolved environment on the secret. -/
def Secret.SetEnv (s : Secret) : Secret :=
  { s with Environment := s.GetEnv }

/-- `Secret.TrimNameSuffix`. -/
def Secret.TrimNameSuffix (s : Secret) (suffix : String) : Secret :=
  { s with Name := goTrimSuffix s.Name suffix }

/-- `Secret.TrimNameEnv`: remove the environment suffix found in the name,
if any. -/
def Secret.TrimNameEnv (s : Secret) : Secret :=
  match s.GetEnvFromName with
  | some env => s.TrimNameSuffix ("-" ++ env.Name)
  | none => s

/-- `secret.FilterByTags`: with a non-empty required-tags map, keep the
secrets containing every required tag with the required value and report
that filtering was applied; with an empty map, return the input with the
flag unset. -/
def FilterByTags (secrets : List Secret) (tags : GoMap) : Bool × List Secret :=
  if tags.length > 0 then
    (true, secrets.filter (fun s => List.all tags fun kv => s.ContainsTagWithValue kv.1 kv.2))
  else
    (false, secrets)

/-- `secret.ParseFilterTags`: parse `KEY=VALUE` pairs separated by `;`.
`log.Panicf` on a pair that does not split into exactly two parts is
modelled as `none`. -/
def ParseFilterTags (tagsString : String) : Option GoMap :=
  if tagsString.length > 0 then
    (goSplit tagsString ';').foldlM
      (fun tags tag =>
        match goSplit tag '=' with
        | [k, v] => some (mapInsert tags k (GoVal.vStr v))
        | _ => none)
      []
  else
    some []

/-! ## The vault package

The destination/source store behind `pkg/vault` is modelled as the list of
its secrets, each a path with its data map and custom-metadata (tags) map.
A fetch of one secret either succeeds with the stored pair or fails with a
backend error.  The three write calls the repository performs against the
KV v2 API (`Put`, `PutMetadata`, `DeleteMetadata`) are modelled by
`applyOp` below. -/

/-- A destination or source store: one entry per secret path. -/
abbrev Store := List (String × GoMap × GoMap)

/-- `getSecret` on a successful read: `secret.New` followed by `AddData`
with the secret data and `AddTags` with the custom metadata. -/
def getSecretOk (path : String) (dt : GoMap × GoMap) : Secret :=
  ((New path).AddData dt.1).AddTags dt.2

/-- `vault.getSecret`: builds the secret from the fetched data and
metadata.  When the read fails, the Go code logs the error and then
unconditionally dereferences the nil response (`vs.Data`), a nil-pointer
panic that aborts the run — modelled as `none`. -/
def getSecret (path : String) (fetch : Option (GoMap × GoMap)) : Option Secret :=
  match fetch with
  | some dt => some (getSecretOk path dt)
  | none => none

/-- `vault.GetSecrets` over the per-key fetch outcomes: every listed key is
fetched with `getSecret`, its environment is resolved, and it is kept when
it belongs to `env` (the `GlobalEnv` when `env` is nil), with the name
trimmed when the target is not a group.  A failed fetch aborts the run
(see `getSecret`), hence the `Option` result. -/
def GetSecretsF (env : Option Environment) (fetches : List (String × Option (GoMap × GoMap))) :
    Option (List Secret) :=
  let e := env.getD GlobalEnv
  fetches.foldlM
    (fun secrets f =>
      match getSecret f.1 f.2 with
      | none => none
      | some s0 =>
        let s := s0.SetEnv
        some (if s.BelongsToEnv (some e) then
                secrets ++ [if e.IsGroup then s else s.TrimNameEnv]
              else secrets))
    []

/-- `vault.GetSecrets` when every fetch succeeds (the store is the backend
state): the same loop as `GetSecretsF`, without the failure case. -/
def GetSecrets (env : Option Environment) (store : Store) : List Secret :=
  let e := env.getD GlobalEnv
  store.foldl
    (fun secrets entry =>
      let s := (getSecretOk entry.1 entry.2).SetEnv
      if s.BelongsToEnv (some e) then
        secrets ++ [if e.IsGroup then s else s.TrimNameEnv]
      else secrets)
    []

/-- The per-key fetch outcomes of a store on which every read succeeds. -/
def storeFetches (store : Store) : List (String × Option (GoMap × GoMap)) :=
  store.map (fun entry => (entry.1, some entry.2))

/-- A write performed against the destination store. -/
inductive Op where
  | putData : String → GoMap → Op
  | putMeta : String → GoMap → Op
  | deleteMetadata : String → Op
deriving DecidableEq, Repr

/-- The inner loop of `UpdateChangedSecrets`: the first current secret with
the same name, if any. -/
def findByName (cur : List Secret) (n : String) : Option Secret :=
  cur.find? (fun c => decide (n = c.Name))

/-- The `updateData` / `updateTags` flags `UpdateChangedSecrets` computes
for one new secret: both true when no current secret has the same name,
otherwise the negations of data and tag equality with the first match. -/
def writeFlags (cur : List Secret) (new : Secret) : Bool × Bool :=
  match findByName cur new.Name with
  | some c => (!(new.EqualData c), !(new.EqualTags c))
  | none => (true, true)

/-- The writes `UpdateChangedSecrets` performs for one new secret:
`putSecretData` when the data must be written, then `putSecretMetadata`
when the tags must be written. -/
def updateOpsFor (cur : List Secret) (new : Secret) : List Op :=
  let w := writeFlags cur new
  (if w.1 then [Op.putData new.Name new.Data] else []) ++
  (if w.2 then [Op.putMeta new.Name new.Tags] else [])

/-- `vault.UpdateChangedSecrets`: the writes performed for the new secrets,
compared against the current snapshot `cur` (`v.Secrets`). -/
def UpdateChangedSecrets (cur : List Secret) (newSecrets : List Secret) : List Op :=
  newSecrets.flatMap (updateOpsFor cur)

/-- `vault.CleanRemovedSecrets`: a `DeleteMetadata` for every current
secret whose name matches no new secret. -/
def CleanRemovedSecrets (cur : List Secret) (newSecrets : List Secret) : List Op :=
  cur.filterMap (fun c =>
    if newSecrets.any (fun new => c.EqualName new) then none
    else some (Op.deleteMetadata c.Name))

/-- The destination KV v2 store's reaction to the three write calls the
repository makes: `Put` overwrites the data of an existing secret keeping
its custom metadata, and creates the secret with empty metadata when
absent; `PutMetadata` overwrites the custom metadata keeping the data, and
creates the secret with empty data when absent; `DeleteMetadata` removes
the secret entirely. -/
def applyOp (st : Store) (op : Op) : Store :=
  match op with
  | Op.putData n d =>
    if st.any (fun entry => decide (entry.1 = n)) then
      st.map (fun entry => if entry.1 = n then (entry.1, d, entry.2.2) else entry)
    else
      st ++ [(n, d, [])]
  | Op.putMeta n t =>
    if st.any (fun entry => decide (entry.1 = n)) then
      st.map (fun entry => if entry.1 = n then (entry.1, entry.2.1, t) else entry)
    else
      st ++ [(n, [], t)]
  | Op.deleteMetadata n =>
    st.filter (fun entry => decide (entry.1 ≠ n))

/-- Apply a sequence of writes to the store, in order. -/
def applyOps (st : Store) (ops : List Op) : Store :=
  ops.foldl applyOp st

/-- `vault.UpdateSecrets` on a fresh `Vault` value (`v.Secrets` empty, as
in `main.UpdateDestinationSecrets`): fetch the destination's own secrets
with a nil target environment, then perform the changed-secret writes and
the removed-secret deletes.  Returns the resulting store together with the
writes that were performed. -/
def UpdateSecrets (newSecrets : List Secret) (store : Store) : Store × List Op :=
  let cur := GetSecrets none store
  let ops := UpdateChangedSecrets cur newSecrets ++ CleanRemovedSecrets cur newSecrets
  (applyOps store ops, ops)

/-! ## Basic lemmas about the map model -/

theorem mapGet_mem_keys {m : GoMap} {k : String} {v : GoVal} (h : mapGet m k = some v) :
    ∃ p ∈ m, p.1 = k := by
  induction m with
  | nil => simp [mapGet] at h
  | cons p rest ih =>
    by_cases hp : p.1 = k
    · exact ⟨p, List.mem_cons_self p rest, hp⟩
    · rw [mapGet, if_neg hp] at h
      obtain ⟨q, hq, hqk⟩ := ih h
      exact ⟨q, List.mem_cons_of_mem p hq, hqk⟩

theorem mapGet_eq_of_mapEq {m1 m2 : GoMap} (h : mapEq m1 m2 = true) (k : String) :
    mapGet m1 k = mapGet m2 k := by
  unfold mapEq at h
  rw [Bool.and_eq_true, List.all_eq_true, List.all_eq_true] at h
  obtain ⟨h1, h2⟩ := h
  rcases hg1 : mapGet m1 k with _ | v
  · rcases hg2 : mapGet m2 k with _ | w
    · rfl
    · obtain ⟨p, hp, hpk⟩ := mapGet_mem_keys hg2
      have h2p := h2 p hp
      rw [decide_eq_true_eq, hpk, hg1, hg2] at h2p
      exact h2p
  · obtain ⟨p, hp, hpk⟩ := mapGet_mem_keys hg1
    have h1p := h1 p hp
    rw [decide_eq_true_eq, hpk, hg1] at h1p
    exact h1p

theorem mapEq_of_get {m1 m2 : GoMap} (h : ∀ k, mapGet m1 k = mapGet m2 k) :
    mapEq m1 m2 = true := by
  unfold mapEq
  rw [Bool.and_eq_true, List.all_eq_true, List.all_eq_true]
  constructor <;> intro p _ <;> rw [decide_eq_true_eq] <;> exact h p.1

theorem mapEq_refl (m : GoMap) : mapEq m m = true :=
  mapEq_of_get (fun _ => rfl)

theorem DeepEqual_eq_true_iff {m1 m2 : GoMap} :
    DeepEqual m1 m2 = true ↔
      (mapEq m1 m2 = true ∨ mapEq (normMap m1) (normMap m2) = true) := by
  unfold DeepEqual
  by_cases h1 : mapEq m1 m2 = true <;> by_cases h2 : mapEq (normMap m1) (normMap m2) = true <;>
    simp [h1, h2]

theorem DeepEqual_refl (m : GoMap) : DeepEqual m m = true :=
  DeepEqual_eq_true_iff.mpr (Or.inl (mapEq_refl m))

theorem DeepEqual_of_get {m1 m2 : GoMap} (h : ∀ k, mapGet m1 k = mapGet m2 k) :
    DeepEqual m1 m2 = true :=
  DeepEqual_eq_true_iff.mpr (Or.inl (mapEq_of_get h))

theorem normMap_get (m : GoMap) (k : String) :
    mapGet (normMap m) k = (mapGet m k).map normVal := by
  induction m with
  | nil => rfl
  | cons p rest ih =>
    by_cases hp : p.1 = k
    · simp [normMap, mapGet, hp]
    · simp only [normMap, List.map_cons, mapGet, hp, if_false]
      simpa [normMap] using ih

theorem DeepEqual_norm_get {m1 m2 : GoMap} (h : DeepEqual m1 m2 = true) (k : String) :
    (mapGet m1 k).map normVal = (mapGet m2 k).map normVal := by
  rcases DeepEqual_eq_true_iff.mp h with h | h
  · rw [mapGet_eq_of_mapEq h]
  · have hk := mapGet_eq_of_mapEq h k
    rwa [normMap_get, normMap_get] at hk

theorem normVal_toGoString (v : GoVal) : (normVal v).toGoString = v.toGoString := by
  cases v <;> rfl

theorem normVal_eq_vNull {v : GoVal} : normVal v = GoVal.vNull ↔ v = GoVal.vNull := by
  cases v <;> simp [normVal]

/-! ## Environment resolution depends only on the name and the
(normalised) tag lookups -/

theorem SetEnv_Name (s : Secret) : s.SetEnv.Name = s.Name := rfl

theorem SetEnv_Data (s : Secret) : s.SetEnv.Data = s.Data := rfl

theorem SetEnv_Tags (s : Secret) : s.SetEnv.Tags = s.Tags := rfl

theorem SetEnv_Environment (s : Secret) : s.SetEnv.Environment = s.GetEnv := rfl

theorem GetTagValue_congr {s1 s2 : Secret}
    (h : ∀ k, (mapGet s1.Tags k).map normVal = (mapGet s2.Tags k).map normVal)
    (key : String) : s1.GetTagValue key = s2.GetTagValue key := by
  have hk := h key
  unfold Secret.GetTagValue Secret.ContainsTag
  cases hg1 : mapGet s1.Tags key with
  | none =>
    cases hg2 : mapGet s2.Tags key with
    | none => rfl
    | some v2 =>
      rw [hg1, hg2] at hk
      simp at hk
  | some v1 =>
    cases hg2 : mapGet s2.Tags key with
    | none =>
      rw [hg1, hg2] at hk
      simp at hk
    | some v2 =>
      rw [hg1, hg2] at hk
      have hnorm : normVal v1 = normVal v2 := by simpa using hk
      have hnull : (v1 = GoVal.vNull) ↔ (v2 = GoVal.vNull) := by
        rw [← normVal_eq_vNull, ← @normVal_eq_vNull v2, hnorm]
      have hstr : v1.toGoString = v2.toGoString := by
        rw [← normVal_toGoString, ← normVal_toGoString v2, hnorm]
      by_cases hv1 : v1 = GoVal.vNull
      · have hv2 : v2 = GoVal.vNull := hnull.mp hv1
        simp [hv1, hv2]
      · have hv2 : ¬ v2 = GoVal.vNull := fun hh => hv1 (hnull.mpr hh)
        simp [hv1, hv2, hstr]

theorem GetEnvFromName_congr {s1 s2 : Secret} (h : s1.Name = s2.Name) :
    s1.GetEnvFromName = s2.GetEnvFromName := by
  unfold Secret.GetEnvFromName
  rw [h]

theorem GetEnv_congr {s1 s2 : Secret} (hn : s1.Name = s2.Name)
    (he1 : s1.Environment = none) (he2 : s2.Environment = none)
    (ht : ∀ k, (mapGet s1.Tags k).map normVal = (mapGet s2.Tags k).map normVal) :
    s1.GetEnv = s2.GetEnv := by
  unfold Secret.GetEnv
  rw [he1, he2, GetEnvFromName_congr hn]
  cases s2.GetEnvFromName with
  | some e => rfl
  | none =>
    unfold Secret.GetEnvFromTags
    rw [GetTagValue_congr ht]

/-! ## The fetch-and-scope pipeline as a filterMap -/

/-- One iteration of the `GetSecrets` loop: resolve the environment, keep
the secret when it belongs to the target, trimming the name unless the
target is a group. -/
def scopeSecret (e : Environment) (s0 : Secret) : Option Secret :=
  let s := s0.SetEnv
  if s.BelongsToEnv (some e) then some (if e.IsGroup then s else s.TrimNameEnv) else none

theorem GetSecrets_foldl_aux (e : Environment) (store : Store) (acc : List Secret) :
    store.foldl
      (fun secrets entry =>
        let s := (getSecretOk entry.1 entry.2).SetEnv
        if s.BelongsToEnv (some e) then
          secrets ++ [if e.IsGroup then s else s.TrimNameEnv]
        else secrets)
      acc
    = acc ++ store.filterMap (fun entry => scopeSecret e (getSecretOk entry.1 entry.2)) := by
  induction store generalizing acc with
  | nil => simp
  | cons c rest ih =>
    rw [List.foldl_cons, List.filterMap_cons]
    cases hb : ((getSecretOk c.1 c.2).SetEnv).BelongsToEnv (some e) with
    | false => simp only [hb, Bool.false_eq_true, if_false, scopeSecret, ih]
    | true => simp only [hb, if_true, scopeSecret, ih, List.append_assoc, List.singleton_append]

theorem GetSecrets_eq_filterMap (env : Option Environment) (store : Store) :
    GetSecrets env store
      = store.filterMap
          (fun entry => scopeSecret (env.getD GlobalEnv) (getSecretOk entry.1 entry.2)) := by
  unfold GetSecrets
  rw [GetSecrets_foldl_aux]
  rfl

theorem GetSecretsF_aux (e : Environment) (store : Store) (acc : List Secret) :
    (storeFetches store).foldlM
      (fun secrets f =>
        match getSecret f.1 f.2 with
        | none => none
        | some s0 =>
          let s := s0.SetEnv
          some (if s.BelongsToEnv (some e) then
                  secrets ++ [if e.IsGroup then s else s.TrimNameEnv]
                else secrets))
      acc
    = some (store.foldl
        (fun secrets entry =>
          let s := (getSecretOk entry.1 entry.2).SetEnv
          if s.BelongsToEnv (some e) then
            secrets ++ [if e.IsGroup then s else s.TrimNameEnv]
          else secrets)
        acc) := by
  induction store generalizing acc with
  | nil => rfl
  | cons c rest ih =>
    rw [storeFetches, List.map_cons, List.foldlM_cons, List.foldl_cons]
    have hc : getSecret c.1 (some c.2) = some (getSecretOk c.1 c.2) := rfl
    rw [hc]
    exact ih _

theorem GetSecretsF_storeFetches (env : Option Environment) (store : Store) :
    GetSecretsF env (storeFetches store) = some (GetSecrets env store) := by
  unfold GetSecretsF GetSecrets
  exact GetSecretsF_aux (env.getD GlobalEnv) store []

/-! ## Resolution lemmas shared between claims -/

theorem GetEnv_of_some {s : Secret} {e : Environment} (h : s.Environment = some e) :
    s.GetEnv = some e := by
  unfold Secret.GetEnv
  rw [h]

theorem GetEnv_of_none {s : Secret} (h : s.Environment = none) :
    s.GetEnv = (match s.GetEnvFromName with
                | some e => some e
                | none => s.GetEnvFromTags) := by
  unfold Secret.GetEnv
  rw [h]

theorem SetEnv_GetEnv (s : Secret) : s.SetEnv.GetEnv = s.GetEnv := by
  cases hg : s.GetEnv with
  | some e =>
    have h1 : s.SetEnv.Environment = some e := by rw [SetEnv_Environment, hg]
    exact GetEnv_of_some h1
  | none =>
    have h1 : s.SetEnv.Environment = none := by rw [SetEnv_Environment, hg]
    have hsenv : s.Environment = none := by
      cases hse : s.Environment with
      | none => rfl
      | some e =>
        rw [GetEnv_of_some hse] at hg
        simp at hg
    rw [GetEnv_of_none h1]
    rw [GetEnv_of_none hsenv] at hg
    exact hg

/-- A secret value carrying just an environment reference, for exercising
`BelongsToEnv`. -/
def secretWithEnv (e : Option Environment) : Secret :=
  { Name := "s", Data := [], Environment := e, Tags := [] }

/-! ## Claims C3 and C4 -/

/-- Claim C3: `BelongsToEnv` is reflexive on the six fixed environments;
`global` matches everything in both argument orders; `nonprod` matches
each of `dev`, `test`, `staging` in both orders; `prod` and `nonprod`
never match each other; and the membership is false whenever either the
secret's environment or the target environment is absent. -/
theorem C3_BelongsToEnv_table :
    ([DevEnv, TestEnv, StagingEnv, ProdEnv, NonprodEnv, GlobalEnv].all
        (fun e => (secretWithEnv (some e)).BelongsToEnv (some e)) = true)
    ∧ ([DevEnv, TestEnv, StagingEnv, ProdEnv, NonprodEnv, GlobalEnv].all
        (fun e => (secretWithEnv (some e)).BelongsToEnv (some GlobalEnv)
          && (secretWithEnv (some GlobalEnv)).BelongsToEnv (some e)) = true)
    ∧ ([DevEnv, TestEnv, StagingEnv].all
        (fun e => (secretWithEnv (some e)).BelongsToEnv (some NonprodEnv)
          && (secretWithEnv (some NonprodEnv)).BelongsToEnv (some e)) = true)
    ∧ (secretWithEnv (some ProdEnv)).BelongsToEnv (some NonprodEnv) = false
    ∧ (secretWithEnv (some NonprodEnv)).BelongsToEnv (some ProdEnv) = false
    ∧ (∀ s : Secret, s.BelongsToEnv none = false)
    ∧ (∀ s : Secret, s.Environment = none → ∀ e, s.BelongsToEnv e = false) := by
  refine ⟨by decide, by decide, by decide, by decide, by decide, fun s => ?_, fun s h e => ?_⟩
  · unfold Secret.BelongsToEnv
    cases s.Environment <;> rfl
  · cases e <;> simp [Secret.BelongsToEnv, h]

/-- Witness for claim C3: the nil cases at a concrete secret. -/
theorem C3_witness :
    (secretWithEnv none).BelongsToEnv (some DevEnv) = false :=
  C3_BelongsToEnv_table.2.2.2.2.2.2 (secretWithEnv none) rfl (some DevEnv)

/-- Claim C4: environment resolution precedence — an already-set
environment reference is returned unchanged (so resolving twice never
changes the result); otherwise the name suffix is consulted, then the
`Environment` tag; `"db-prod"` resolves to prod, `"db"` with tag
`Environment=staging` resolves to staging, and bare `"db"` resolves to
absent. -/
theorem C4_GetEnv_precedence :
    (∀ (s : Secret) (e : Environment), s.Environment = some e → s.GetEnv = some e)
    ∧ (∀ s : Secret, s.SetEnv.GetEnv = s.GetEnv)
    ∧ (∀ s : Secret, s.Environment = none →
        s.GetEnv = (match s.GetEnvFromName with
                    | some e => some e
                    | none => s.GetEnvFromTags))
    ∧ ({ Name := "db-prod", Data := [], Environment := none, Tags := [] } : Secret).GetEnv
        = some ProdEnv
    ∧ ({ Name := "db", Data := [], Environment := none,
         Tags := [("Environment", GoVal.vStr "staging")] } : Secret).GetEnv = some StagingEnv
    ∧ ({ Name := "db", Data := [], Environment := none, Tags := [] } : Secret).GetEnv
        = none :=
  ⟨fun _ _ h => GetEnv_of_some h, SetEnv_GetEnv, fun _ h => GetEnv_of_none h,
   by decide, by decide, by decide⟩

/-- Witness for claim C4: the precedence at concrete secrets. -/
theorem C4_witness :
    ({ Name := "db-prod", Data := [], Environment := some DevEnv, Tags := [] } : Secret).GetEnv
      = some DevEnv :=
  C4_GetEnv_precedence.1 _ DevEnv rfl

/-! ## Claim C9 -/

/-- Claim C9: data equality tolerates representation drift — maps that
agree after the JSON marshal/unmarshal round trip are `DeepEqual`, and
hence `EqualData` / `EqualTags` on secrets carrying them hold. -/
theorem C9_DeepEqual_representation_drift :
    (∀ m1 m2 : GoMap, mapEq (normMap m1) (normMap m2) = true → DeepEqual m1 m2 = true)
    ∧ (∀ s o : Secret, mapEq (normMap s.Data) (normMap o.Data) = true → s.EqualData o = true)
    ∧ (∀ s o : Secret, mapEq (normMap s.Tags) (normMap o.Tags) = true → s.EqualTags o = true) := by
  refine ⟨fun m1 m2 h => DeepEqual_eq_true_iff.mpr (Or.inr h),
          fun s o h => ?_, fun s o h => ?_⟩
  · exact DeepEqual_eq_true_iff.mpr (Or.inr h)
  · exact DeepEqual_eq_true_iff.mpr (Or.inr h)

/-- Witness for claim C9: an integer value and its float round trip
compare data-equal while being structurally different. -/
theorem C9_witness :
    ({ Name := "a", Data := [("x", GoVal.vInt 1)], Environment := none, Tags := [] }
        : Secret).EqualData
      { Name := "a", Data := [("x", GoVal.vFloat 1)], Environment := none, Tags := [] } = true :=
  C9_DeepEqual_representation_drift.2.1 _ _ (by decide)

/-! ## Claim C7 -/

theorem ContainsTagWithValue_vStr (s : Secret) (k v : String) :
    s.ContainsTagWithValue k (GoVal.vStr v) = true ↔ mapGet s.Tags k = some (GoVal.vStr v) := by
  unfold Secret.ContainsTagWithValue
  cases hg : mapGet s.Tags k with
  | none => simp
  | some u => simp

/-- Claim C7: `FilterByTags` with an empty required-tags map returns the
input unchanged and the no-filtering flag; with a non-empty map it sets
the flag and keeps exactly the secrets holding every required key with
the exactly matching string value. -/
theorem C7_FilterByTags :
    (∀ secrets : List Secret, FilterByTags secrets [] = (false, secrets))
    ∧ (∀ (secrets : List Secret) (tags : List (String × String)), tags ≠ [] →
        (FilterByTags secrets (tags.map (fun kv => (kv.1, GoVal.vStr kv.2)))).1 = true
        ∧ ∀ s : Secret,
            s ∈ (FilterByTags secrets (tags.map (fun kv => (kv.1, GoVal.vStr kv.2)))).2
              ↔ s ∈ secrets ∧ ∀ kv ∈ tags, mapGet s.Tags kv.1 = some (GoVal.vStr kv.2)) := by
  constructor
  · intro secrets
    rfl
  · intro secrets tags htags
    have hlen : (tags.map (fun kv => (kv.1, GoVal.vStr kv.2)) : GoMap).length > 0 := by
      cases tags with
      | nil => exact absurd rfl htags
      | cons kv rest => simp
    unfold FilterByTags
    rw [if_pos hlen]
    refine ⟨rfl, fun s => ?_⟩
    rw [List.mem_filter]
    constructor
    · rintro ⟨hmem, hall⟩
      refine ⟨hmem, fun kv hkv => ?_⟩
      rw [List.all_eq_true] at hall
      have := hall (kv.1, GoVal.vStr kv.2) (List.mem_map_of_mem _ hkv)
      exact (ContainsTagWithValue_vStr s kv.1 kv.2).mp this
    · rintro ⟨hmem, hall⟩
      refine ⟨hmem, ?_⟩
      rw [List.all_eq_true]
      intro p hp
      rw [List.mem_map] at hp
      obtain ⟨kv, hkv, rfl⟩ := hp
      exact (ContainsTagWithValue_vStr s kv.1 kv.2).mpr (hall kv hkv)

/-- Witness for claim C7: a concrete one-tag filter. -/
theorem C7_witness :
    (FilterByTags
        [{ Name := "a", Data := [], Environment := none,
           Tags := [("team", GoVal.vStr "payments")] }]
        ([("team", "payments")].map (fun kv => (kv.1, GoVal.vStr kv.2)))).1 = true :=
  (C7_FilterByTags.2 _ [("team", "payments")] (by decide)).1

/-! ## Claim C8 -/

theorem foldlM_eq_none_of_mem {α β : Type} (f : β → α → Option β) (l : List α) (a : α)
    (ha : a ∈ l) (hf : ∀ b, f b a = none) : ∀ init, l.foldlM f init = none := by
  induction l with
  | nil => cases ha
  | cons x rest ih =>
    intro init
    rw [List.foldlM_cons]
    rcases List.mem_cons.mp ha with rfl | ha2
    · rw [hf init]
      rfl
    · cases hx : f init x with
      | none => rfl
      | some b => exact ih ha2 b

/-- Claim C8: `ParseFilterTags` maps the empty string to the empty map,
panics (modelled as `none`) whenever some `;`-separated pair of a
non-empty input does not split into exactly two parts on `=`, and parses
well-formed inputs into the required-tags map. -/
theorem C8_ParseFilterTags :
    ParseFilterTags "" = some []
    ∧ (∀ (input pair : String), 0 < input.length → pair ∈ goSplit input ';' →
        (goSplit pair '=').length ≠ 2 → ParseFilterTags input = none)
    ∧ ParseFilterTags "A=1;B=2" = some [("A", GoVal.vStr "1"), ("B", GoVal.vStr "2")] := by
  refine ⟨by decide, ?_, by decide⟩
  intro input pair hlen hmem hbad
  unfold ParseFilterTags
  rw [if_pos hlen]
  apply foldlM_eq_none_of_mem _ _ pair hmem
  intro b
  show (match goSplit pair '=' with
        | [k, v] => some (mapInsert b k (GoVal.vStr v))
        | _ => none) = none
  cases hsp : goSplit pair '=' with
  | nil => rfl
  | cons k rest =>
    cases rest with
    | nil => rfl
    | cons v rest2 =>
      cases rest2 with
      | nil =>
        rw [hsp] at hbad
        exact absurd rfl hbad
      | cons w rest3 => rfl

/-- Witness for claim C8: a trailing pair with no `=` aborts parsing. -/
theorem C8_witness : ParseFilterTags "A=1;B" = none :=
  C8_ParseFilterTags.2.1 "A=1;B" "B" (by decide) (by decide) (by decide)

/-! ## Claim C6 -/

/-- Claim C6 records a divergence between the spec and the code: the spec
says a secret whose fetch fails is logged and excluded while the run
continues, but `getSecret` dereferences the nil response after logging,
panicking and aborting the whole run.  At a concrete key list with one
failing fetch, the pipeline yields no secret list at all (and in
particular not the two successfully fetched secrets). -/
theorem C6_fetch_failure_aborts :
    GetSecretsF (some DevEnv)
      [("a-dev", some ([("k", GoVal.vStr "v")], [])),
       ("bad-dev", none),
       ("c-dev", some ([("k", GoVal.vStr "v")], []))] = none
    ∧ getSecret "bad-dev" none = none := ⟨rfl, rfl⟩

/-! ## Claim C10 -/

/-- Claim C10: for each concrete target environment, a secret whose whole
name is `-` followed by the environment name resolves to that
environment, is kept by the scoping pipeline, and leaves the pipeline
with an empty name. -/
theorem C10_bare_suffix_name :
    GetSecrets (some DevEnv) [("-dev", [("k", GoVal.vStr "v")], [])]
      = [{ Name := "", Data := [("k", GoVal.vStr "v")], Environment := some DevEnv, Tags := [] }]
    ∧ GetSecrets (some TestEnv) [("-test", [("k", GoVal.vStr "v")], [])]
      = [{ Name := "", Data := [("k", GoVal.vStr "v")], Environment := some TestEnv, Tags := [] }]
    ∧ GetSecrets (some StagingEnv) [("-staging", [("k", GoVal.vStr "v")], [])]
      = [{ Name := "", Data := [("k", GoVal.vStr "v")],
           Environment := some StagingEnv, Tags := [] }]
    ∧ GetSecrets (some ProdEnv) [("-prod", [("k", GoVal.vStr "v")], [])]
      = [{ Name := "", Data := [("k", GoVal.vStr "v")], Environment := some ProdEnv, Tags := [] }]
    ∧ (New "-dev").GetEnvFromName = some DevEnv := by
  refine ⟨by decide, by decide, by decide, by decide, by decide⟩

/-! ## Claim C5 -/

theorem goTrimSuffix_append (base suffix : String) :
    goTrimSuffix (base ++ suffix) suffix = base := by
  unfold goTrimSuffix goHasSuffix
  have hdata : (base ++ suffix).data = base.data ++ suffix.data := String.data_append base suffix
  have hpre : List.isPrefixOf suffix.data.reverse (base ++ suffix).data.reverse = true := by
    rw [hdata, List.reverse_append]
    exact List.isPrefixOf_iff_prefix.mpr (List.prefix_append _ _)
  rw [if_pos hpre, hdata]
  have hlen : (base.data ++ suffix.data).length - suffix.data.length = base.data.length := by
    rw [List.length_append, Nat.add_sub_cancel]
  rw [hlen, List.take_left]

theorem scopeSecret_name_of_nongroup {s r : Secret} {env e : Environment}
    (hg : env.IsGroup = false) (hs : scopeSecret env s = some r)
    (hn : s.GetEnvFromName = some e) :
    r.Name = goTrimSuffix s.Name ("-" ++ e.Name) := by
  simp only [scopeSecret] at hs
  by_cases hb : (s.SetEnv).BelongsToEnv (some env) = true
  · rw [if_pos hb] at hs
    injection hs with h
    have hsn : (s.SetEnv).GetEnvFromName = some e := by
      rw [GetEnvFromName_congr (SetEnv_Name s)]
      exact hn
    rw [← h, hg]
    simp only [Bool.false_eq_true, if_false]
    unfold Secret.TrimNameEnv
    rw [hsn]
    rfl
  · rw [if_neg hb] at hs
    simp at hs

theorem scopeSecret_name_of_group {s r : Secret} {env : Environment}
    (hg : env.IsGroup = true) (hs : scopeSecret env s = some r) : r.Name = s.Name := by
  simp only [scopeSecret] at hs
  by_cases hb : (s.SetEnv).BelongsToEnv (some env) = true
  · rw [if_pos hb] at hs
    injection hs with h
    rw [← h, hg]
    rfl
  · rw [if_neg hb] at hs
    simp at hs

/-- Claim C5: scoping against a non-group target removes the environment
suffix (`-` plus the environment resolved from the name) from the end of
each kept secret's name, exactly once; a group target leaves the name
untrimmed.  Concretely, `"apps/my-app/db-password-dev"` scoped against
`dev` yields `"apps/my-app/db-password"`, the same secret scoped against
`nonprod` keeps its full name, and `"db-dev-dev"` scoped against `dev`
loses only one copy of the suffix. -/
theorem C5_trim_on_sync :
    (∀ base suffix : String, goTrimSuffix (base ++ suffix) suffix = base)
    ∧ (∀ (s r : Secret) (env e : Environment),
        s.Environment = none → env.IsGroup = false → scopeSecret env s = some r →
        s.GetEnvFromName = some e → r.Name = goTrimSuffix s.Name ("-" ++ e.Name))
    ∧ (∀ (s r : Secret) (env : Environment),
        env.IsGroup = true → scopeSecret env s = some r → r.Name = s.Name)
    ∧ (GetSecrets (some DevEnv) [("apps/my-app/db-password-dev", [], [])]).map Secret.Name
        = ["apps/my-app/db-password"]
    ∧ (GetSecrets (some NonprodEnv) [("apps/my-app/db-password-dev", [], [])]).map Secret.Name
        = ["apps/my-app/db-password-dev"]
    ∧ (GetSecrets (some DevEnv) [("db-dev-dev", [], [])]).map Secret.Name = ["db-dev"] :=
  ⟨goTrimSuffix_append,
   fun _ _ _ _ _ hg hs hn => scopeSecret_name_of_nongroup hg hs hn,
   fun _ _ _ hg hs => scopeSecret_name_of_group hg hs,
   by decide, by decide, by decide⟩

/-- Witness for claim C5: the non-group trim at a concrete secret. -/
theorem C5_witness :
    ({ Name := "db", Data := [], Environment := some DevEnv, Tags := [] } : Secret).Name
      = goTrimSuffix (New "db-dev").Name ("-" ++ DevEnv.Name) :=
  C5_trim_on_sync.2.1 (New "db-dev") _ DevEnv DevEnv rfl rfl (by decide) (by decide)

/-! ## Claim C1 -/

theorem BelongsToEnv_global (s : Secret) :
    s.BelongsToEnv (some GlobalEnv) = s.Environment.isSome := by
  unfold Secret.BelongsToEnv
  cases s.Environment with
  | none => rfl
  | some e =>
    by_cases he : e = GlobalEnv <;> simp [he]

theorem GetSecrets_global (store : Store) :
    GetSecrets none store
      = store.filterMap (fun entry =>
          let s := (getSecretOk entry.1 entry.2).SetEnv
          if s.Environment.isSome then some s else none) := by
  rw [GetSecrets_eq_filterMap]
  congr 1
  funext entry
  simp only [scopeSecret, Option.getD]
  rw [BelongsToEnv_global]
  cases ((getSecretOk entry.1 entry.2).SetEnv).Environment.isSome <;> simp [GlobalEnv]

/-- Claim C1 (amended): when reconciling, the destination list is fetched
with a nil target environment, which `GetSecrets` replaces by the global
environment; this keeps exactly those destination secrets whose resolved
environment is non-absent, with untrimmed names — a destination secret
whose environment resolves to absent is excluded from `current`, so it is
never deleted and a same-named desired secret is treated as a create. -/
theorem C1_current_fetch :
    (∀ store : Store,
      GetSecrets none store
        = store.filterMap (fun entry =>
            let s := (getSecretOk entry.1 entry.2).SetEnv
            if s.Environment.isSome then some s else none))
    ∧ (UpdateSecrets [] [("db", [("k", GoVal.vStr "v")], [])]).2 = []
    ∧ (UpdateSecrets [] [("db", [("k", GoVal.vStr "v")], [])]).1
        = [("db", [("k", GoVal.vStr "v")], [])] :=
  ⟨GetSecrets_global, by decide, by decide⟩

/-- Counterexample to claim C1 as stated: the destination store holds a
secret named `"db"` whose environment resolves to absent; it does not
appear in the `current` collection, and with no same-named desired secret
it is not deleted — the run performs no operation at all and the store is
unchanged, where the claim demands the secret be present in `current` and
deleted. -/
theorem C1_counterexample :
    GetSecrets none [("db", [("k", GoVal.vStr "v")], [])] = []
    ∧ (UpdateSecrets [] [("db", [("k", GoVal.vStr "v")], [])]).2 = []
    ∧ (UpdateSecrets [] [("db", [("k", GoVal.vStr "v")], [])]).1
        = [("db", [("k", GoVal.vStr "v")], [])] :=
  ⟨by decide, by decide, by decide⟩

/-! ## Claim C2: lemmas about map construction -/

theorem mapGet_append (m1 m2 : GoMap) (k : String) :
    mapGet (m1 ++ m2) k
      = match mapGet m1 k with
        | some v => some v
        | none => mapGet m2 k := by
  induction m1 with
  | nil => rfl
  | cons p rest ih =>
    by_cases hp : p.1 = k <;> simp [mapGet, hp, ih]

theorem mapGet_filter_ne_self (m : GoMap) (k : String) :
    mapGet (m.filter fun p => decide (p.1 ≠ k)) k = none := by
  induction m with
  | nil => rfl
  | cons p rest ih =>
    rw [List.filter_cons]
    by_cases hp : p.1 = k
    · rw [if_neg (by simp [hp])]
      exact ih
    · rw [if_pos (by simp [hp]), mapGet, if_neg hp]
      exact ih

theorem mapGet_filter_ne_other (m : GoMap) {k k' : String} (h : k' ≠ k) :
    mapGet (m.filter fun p => decide (p.1 ≠ k)) k' = mapGet m k' := by
  induction m with
  | nil => rfl
  | cons p rest ih =>
    rw [List.filter_cons]
    by_cases hp : p.1 = k
    · have hp' : ¬ p.1 = k' := by rw [hp]; exact fun hh => h hh.symm
      rw [if_neg (by simp [hp])]
      rw [ih]
      show mapGet rest k' = mapGet (p :: rest) k'
      rw [mapGet, if_neg hp']
    · rw [if_pos (by simp [hp])]
      show mapGet (p :: rest.filter fun p => decide (p.1 ≠ k)) k' = mapGet (p :: rest) k'
      rw [mapGet, mapGet]
      by_cases hp' : p.1 = k'
      · rw [if_pos hp', if_pos hp']
      · rw [if_neg hp', if_neg hp']
        exact ih

theorem mapGet_mapInsert_same (m : GoMap) (k : String) (v : GoVal) :
    mapGet (mapInsert m k v) k = some v := by
  unfold mapInsert
  rw [mapGet_append, mapGet_filter_ne_self]
  rw [mapGet, if_pos rfl]

theorem mapGet_mapInsert_other (m : GoMap) {k k' : String} (v : GoVal) (h : k' ≠ k) :
    mapGet (mapInsert m k v) k' = mapGet m k' := by
  unfold mapInsert
  rw [mapGet_append, mapGet_filter_ne_other m h]
  cases hg : mapGet m k' with
  | some u => rfl
  | none =>
    rw [mapGet, if_neg (fun hh => h hh.symm)]
    rfl

theorem mapGet_eq_none_of_not_mem {m : GoMap} {k : String}
    (h : k ∉ m.map Prod.fst) : mapGet m k = none := by
  induction m with
  | nil => rfl
  | cons p rest ih =>
    rw [List.map_cons] at h
    have hp : ¬ p.1 = k := fun hh => h (hh ▸ List.mem_cons_self _ _)
    rw [mapGet, if_neg hp]
    exact ih (fun hh => h (List.mem_cons_of_mem _ hh))

/-- The data or tag map a secret ends up carrying after `New` followed by
`AddData`/`AddTags` with the fetched map `m`. -/
def addAll (m : GoMap) : GoMap :=
  m.foldl (fun acc kv => mapInsert acc kv.1 kv.2) []

theorem mapGet_foldl_insert (D : GoMap) (hnd : (D.map Prod.fst).Nodup) (acc : GoMap)
    (k : String) :
    mapGet (D.foldl (fun m kv => mapInsert m kv.1 kv.2) acc) k
      = match mapGet D k with
        | some v => some v
        | none => mapGet acc k := by
  induction D generalizing acc with
  | nil => rfl
  | cons kv rest ih =>
    rw [List.map_cons, List.nodup_cons] at hnd
    obtain ⟨hk1, hk2⟩ := hnd
    rw [List.foldl_cons, ih hk2]
    by_cases hp : kv.1 = k
    · subst hp
      have hrest : mapGet rest kv.1 = none := mapGet_eq_none_of_not_mem hk1
      rw [hrest]
      simp [mapGet, mapGet_mapInsert_same]
    · have hne : k ≠ kv.1 := fun hh => hp hh.symm
      rw [mapGet_mapInsert_other acc kv.2 hne]
      simp [mapGet, hp]

theorem mapGet_addAll {D : GoMap} (hnd : (D.map Prod.fst).Nodup) (k : String) :
    mapGet (addAll D) k = mapGet D k := by
  rw [addAll, mapGet_foldl_insert D hnd [] k]
  cases mapGet D k <;> rfl

/-! ## Claim C2: store lookup semantics of the write operations -/

/-- Lookup of a secret by path in the store model. -/
def storeGet (st : Store) (n : String) : Option (GoMap × GoMap) :=
  match st with
  | [] => none
  | e :: rest => if e.1 = n then some e.2 else storeGet rest n

/-- The paths present in the store. -/
def storeNames (st : Store) : List String :=
  st.map (fun e => e.1)

theorem storeAny_iff_storeGet (st : Store) (n : String) :
    st.any (fun entry => decide (entry.1 = n)) = (storeGet st n).isSome := by
  induction st with
  | nil => rfl
  | cons e rest ih =>
    rw [List.any_cons, storeGet]
    by_cases he : e.1 = n <;> simp [he, ih]

theorem storeGet_append (st1 st2 : Store) (n : String) :
    storeGet (st1 ++ st2) n
      = match storeGet st1 n with
        | some v => some v
        | none => storeGet st2 n := by
  induction st1 with
  | nil => rfl
  | cons e rest ih =>
    by_cases he : e.1 = n <;> simp [storeGet, he, ih]

theorem storeGet_replaceData (st : Store) (n : String) (d : GoMap) (m : String) :
    storeGet (st.map (fun entry => if entry.1 = n then (entry.1, d, entry.2.2) else entry)) m
      = if m = n then (storeGet st n).map (fun p => (d, p.2)) else storeGet st m := by
  induction st with
  | nil => by_cases hm : m = n <;> simp [storeGet, hm]
  | cons e rest ih =>
    rw [List.map_cons]
    by_cases hm : m = n
    · subst hm
      by_cases he : e.1 = m <;> simp [storeGet, he, ih]
    · have hnm : ¬ n = m := fun hh => hm hh.symm
      by_cases he : e.1 = n
      · have hem : ¬ e.1 = m := by rw [he]; exact hnm
        simp [storeGet, he, hm, hnm, hem, ih]
      · simp [storeGet, he, hm, ih]

theorem storeGet_replaceMeta (st : Store) (n : String) (t : GoMap) (m : String) :
    storeGet (st.map (fun entry => if entry.1 = n then (entry.1, entry.2.1, t) else entry)) m
      = if m = n then (storeGet st n).map (fun p => (p.1, t)) else storeGet st m := by
  induction st with
  | nil => by_cases hm : m = n <;> simp [storeGet, hm]
  | cons e rest ih =>
    rw [List.map_cons]
    by_cases hm : m = n
    · subst hm
      by_cases he : e.1 = m <;> simp [storeGet, he, ih]
    · have hnm : ¬ n = m := fun hh => hm hh.symm
      by_cases he : e.1 = n
      · have hem : ¬ e.1 = m := by rw [he]; exact hnm
        simp [storeGet, he, hm, hnm, hem, ih]
      · simp [storeGet, he, hm, ih]

theorem applyOp_putData_get (st : Store) (n : String) (d : GoMap) (m : String) :
    storeGet (applyOp st (Op.putData n d)) m
      = if m = n then some (d, ((storeGet st n).map (fun p => p.2)).getD [])
        else storeGet st m := by
  simp only [applyOp]
  by_cases hany : st.any (fun entry => decide (entry.1 = n)) = true
  · rw [if_pos hany, storeGet_replaceData]
    rw [storeAny_iff_storeGet] at hany
    obtain ⟨p, hp⟩ := Option.isSome_iff_exists.mp hany
    rw [hp]
    by_cases hm : m = n <;> simp [hm]
  · rw [if_neg hany, storeGet_append]
    have hnone : storeGet st n = none := by
      rw [storeAny_iff_storeGet] at hany
      cases hg : storeGet st n with
      | none => rfl
      | some p => rw [hg] at hany; simp at hany
    by_cases hm : m = n
    · subst hm
      rw [hnone]
      simp [storeGet]
    · rw [if_neg hm]
      cases hg : storeGet st m with
      | some p => rfl
      | none =>
        rw [storeGet, if_neg (fun hh => hm hh.symm)]
        rfl

theorem applyOp_putMeta_get (st : Store) (n : String) (t : GoMap) (m : String) :
    storeGet (applyOp st (Op.putMeta n t)) m
      = if m = n then some (((storeGet st n).map (fun p => p.1)).getD [], t)
        else storeGet st m := by
  simp only [applyOp]
  by_cases hany : st.any (fun entry => decide (entry.1 = n)) = true
  · rw [if_pos hany, storeGet_replaceMeta]
    rw [storeAny_iff_storeGet] at hany
    obtain ⟨p, hp⟩ := Option.isSome_iff_exists.mp hany
    rw [hp]
    by_cases hm : m = n <;> simp [hm]
  · rw [if_neg hany, storeGet_append]
    have hnone : storeGet st n = none := by
      rw [storeAny_iff_storeGet] at hany
      cases hg : storeGet st n with
      | none => rfl
      | some p => rw [hg] at hany; simp at hany
    by_cases hm : m = n
    · subst hm
      rw [hnone]
      simp [storeGet]
    · rw [if_neg hm]
      cases hg : storeGet st m with
      | some p => rfl
      | none =>
        rw [storeGet, if_neg (fun hh => hm hh.symm)]
        rfl

theorem applyOp_delete_get (st : Store) (n m : String) :
    storeGet (applyOp st (Op.deleteMetadata n)) m
      = if m = n then none else storeGet st m := by
  simp only [applyOp]
  induction st with
  | nil =>
    by_cases hm : m = n
    · rw [if_pos hm]
      rfl
    · rw [if_neg hm]
      rfl
  | cons e rest ih =>
    rw [List.filter_cons]
    by_cases he : e.1 = n
    · have hpe : ¬ (decide (e.1 ≠ n) = true) := by simp [he]
      rw [if_neg hpe, ih]
      by_cases hm : m = n
      · rw [if_pos hm, if_pos hm]
      · rw [if_neg hm, if_neg hm]
        have hem : ¬ e.1 = m := by rw [he]; exact fun hh => hm hh.symm
        rw [storeGet, if_neg hem]
    · have hpe : decide (e.1 ≠ n) = true := by simp [he]
      rw [if_pos hpe, storeGet, ih]
      by_cases hm2 : e.1 = m
      · have hmn : ¬ m = n := fun hh => he (by rw [hm2, hh])
        rw [if_pos hm2, if_neg hmn, storeGet, if_pos hm2]
      · rw [if_neg hm2]
        by_cases hm : m = n
        · rw [if_pos hm, if_pos hm]
        · rw [if_neg hm, if_neg hm, storeGet, if_neg hm2]

/-- The path a write operation touches. -/
def opName : Op → String
  | Op.putData n _ => n
  | Op.putMeta n _ => n
  | Op.deleteMetadata n => n

theorem applyOp_get_other (st : Store) (op : Op) {m : String} (h : opName op ≠ m) :
    storeGet (applyOp st op) m = storeGet st m := by
  cases op with
  | putData n d =>
    rw [applyOp_putData_get, if_neg (fun hh => h hh.symm)]
  | putMeta n t =>
    rw [applyOp_putMeta_get, if_neg (fun hh => h hh.symm)]
  | deleteMetadata n =>
    rw [applyOp_delete_get, if_neg (fun hh => h hh.symm)]

theorem applyOps_get_other (st : Store) (ops : List Op) {m : String}
    (h : ∀ op ∈ ops, opName op ≠ m) :
    storeGet (applyOps st ops) m = storeGet st m := by
  induction ops generalizing st with
  | nil => rfl
  | cons op rest ih =>
    rw [applyOps, List.foldl_cons]
    rw [show rest.foldl applyOp (applyOp st op) = applyOps (applyOp st op) rest from rfl]
    rw [ih (applyOp st op) (fun o ho => h o (List.mem_cons_of_mem _ ho))]
    exact applyOp_get_other st op (h op (List.mem_cons_self _ _))

/-! ## Claim C2: path uniqueness is preserved by the writes -/

theorem any_name_eq_false_iff {st : Store} {n : String} :
    st.any (fun entry => decide (entry.1 = n)) = false ↔ n ∉ storeNames st := by
  rw [List.any_eq_false]
  constructor
  · intro h hn
    rw [storeNames, List.mem_map] at hn
    obtain ⟨e, he, hen⟩ := hn
    exact h e he (by rw [decide_eq_true_eq]; exact hen)
  · intro h e he hd
    rw [decide_eq_true_eq] at hd
    exact h (hd ▸ List.mem_map_of_mem _ he)

theorem storeNames_replaceData (st : Store) (n : String) (d : GoMap) :
    storeNames (st.map (fun entry => if entry.1 = n then (entry.1, d, entry.2.2) else entry))
      = storeNames st := by
  induction st with
  | nil => rfl
  | cons e rest ih =>
    rw [List.map_cons]
    unfold storeNames at ih ⊢
    rw [List.map_cons, List.map_cons]
    by_cases he : e.1 = n
    · rw [if_pos he, ih]
    · rw [if_neg he, ih]

theorem storeNames_replaceMeta (st : Store) (n : String) (t : GoMap) :
    storeNames (st.map (fun entry => if entry.1 = n then (entry.1, entry.2.1, t) else entry))
      = storeNames st := by
  induction st with
  | nil => rfl
  | cons e rest ih =>
    rw [List.map_cons]
    unfold storeNames at ih ⊢
    rw [List.map_cons, List.map_cons]
    by_cases he : e.1 = n
    · rw [if_pos he, ih]
    · rw [if_neg he, ih]

theorem storeNames_nodup_append_one {st : Store} {x : String × GoMap × GoMap}
    (h : (storeNames st).Nodup) (hx : x.1 ∉ storeNames st) :
    (storeNames (st ++ [x])).Nodup := by
  unfold storeNames at h hx ⊢
  rw [List.map_append]
  rw [List.nodup_append]
  refine ⟨h, List.nodup_singleton _, ?_⟩
  intro a ha hb
  rw [List.map_singleton, List.mem_singleton] at hb
  subst hb
  exact hx ha

theorem storeNames_nodup_applyOp {st : Store} (op : Op) (h : (storeNames st).Nodup) :
    (storeNames (applyOp st op)).Nodup := by
  cases op with
  | putData n d =>
    simp only [applyOp]
    by_cases hany : st.any (fun entry => decide (entry.1 = n)) = true
    · rw [if_pos hany, storeNames_replaceData]
      exact h
    · rw [if_neg hany]
      exact storeNames_nodup_append_one h
        (any_name_eq_false_iff.mp (Bool.not_eq_true _ ▸ Bool.of_not_eq_true hany))
  | putMeta n t =>
    simp only [applyOp]
    by_cases hany : st.any (fun entry => decide (entry.1 = n)) = true
    · rw [if_pos hany, storeNames_replaceMeta]
      exact h
    · rw [if_neg hany]
      exact storeNames_nodup_append_one h
        (any_name_eq_false_iff.mp (Bool.not_eq_true _ ▸ Bool.of_not_eq_true hany))
  | deleteMetadata n =>
    simp only [applyOp]
    have hsub : (storeNames (st.filter (fun entry => decide (entry.1 ≠ n)))).Sublist
        (storeNames st) := List.Sublist.map _ (List.filter_sublist st)
    exact hsub.nodup h

theorem storeNames_nodup_applyOps {st : Store} (ops : List Op)
    (h : (storeNames st).Nodup) : (storeNames (applyOps st ops)).Nodup := by
  induction ops generalizing st with
  | nil => exact h
  | cons op rest ih =>
    rw [applyOps, List.foldl_cons]
    exact ih (storeNames_nodup_applyOp op h)

theorem storeGet_of_mem {st : Store} (h : (storeNames st).Nodup) {e : String × GoMap × GoMap}
    (he : e ∈ st) : storeGet st e.1 = some e.2 := by
  induction st with
  | nil => cases he
  | cons x rest ih =>
    simp only [storeNames, List.map_cons, List.nodup_cons] at h
    obtain ⟨hx, hrest⟩ := h
    rcases List.mem_cons.mp he with rfl | he2
    · rw [storeGet, if_pos rfl]
    · have hxe : ¬ x.1 = e.1 := fun hh => hx (hh ▸ List.mem_map_of_mem _ he2)
      rw [storeGet, if_neg hxe]
      exact ih hrest he2

theorem mem_of_storeGet {st : Store} {n : String} {v : GoMap × GoMap}
    (h : storeGet st n = some v) : (n, v) ∈ st := by
  induction st with
  | nil => simp [storeGet] at h
  | cons e rest ih =>
    rw [storeGet] at h
    by_cases he : e.1 = n
    · rw [if_pos he] at h
      injection h with h2
      have : (n, v) = e := by rw [← he, ← h2]
      rw [this]
      exact List.mem_cons_self _ _
    · rw [if_neg he] at h
      exact List.mem_cons_of_mem _ (ih h)

/-! ## Claim C2: the current snapshot as seen through the store -/

theorem mem_GetSecrets_none_iff {store : Store} {c : Secret} :
    c ∈ GetSecrets none store
      ↔ ∃ e ∈ store, ((getSecretOk e.1 e.2).SetEnv).Environment.isSome = true
          ∧ c = (getSecretOk e.1 e.2).SetEnv := by
  rw [GetSecrets_global, List.mem_filterMap]
  constructor
  · rintro ⟨e, he, hfe⟩
    dsimp only at hfe
    by_cases hs : ((getSecretOk e.1 e.2).SetEnv).Environment.isSome = true
    · rw [if_pos hs] at hfe
      injection hfe with hfe
      exact ⟨e, he, hs, hfe.symm⟩
    · rw [if_neg hs] at hfe
      simp at hfe
  · rintro ⟨e, he, hs, rfl⟩
    refine ⟨e, he, ?_⟩
    dsimp only
    rw [if_pos hs]

theorem GetSecrets_none_names_sublist (store : Store) :
    ((GetSecrets none store).map Secret.Name).Sublist (storeNames store) := by
  rw [GetSecrets_global]
  induction store with
  | nil => simp [storeNames]
  | cons e rest ih =>
    rw [List.filterMap_cons]
    simp only [storeNames, List.map_cons]
    cases hf : (let s := (getSecretOk e.1 e.2).SetEnv
                if s.Environment.isSome then some s else none) with
    | none => exact ih.cons _
    | some c =>
      rw [List.map_cons]
      have hc : c.Name = e.1 := by
        dsimp only at hf
        by_cases hs : ((getSecretOk e.1 e.2).SetEnv).Environment.isSome = true
        · rw [if_pos hs] at hf
          injection hf with hf
          rw [← hf]
          rfl
        · rw [if_neg hs] at hf
          simp at hf
      rw [hc]
      exact ih.cons₂ _

theorem findByName_of_mem {cur : List Secret} (h : (cur.map Secret.Name).Nodup) {c : Secret}
    (hc : c ∈ cur) : findByName cur c.Name = some c := by
  induction cur with
  | nil => cases hc
  | cons x rest ih =>
    rw [List.map_cons, List.nodup_cons] at h
    obtain ⟨hx, hrest⟩ := h
    rcases List.mem_cons.mp hc with rfl | hc2
    · unfold findByName
      rw [List.find?_cons_of_pos _ (by rw [decide_eq_true_eq])]
    · have hxc : ¬ (decide (c.Name = x.Name) = true) := by
        rw [decide_eq_true_eq]
        intro hh
        exact hx (by rw [← hh]; exact List.mem_map_of_mem _ hc2)
      unfold findByName
      rw [@List.find?_cons_of_neg _ (fun s => decide (c.Name = s.Name)) x rest hxc]
      exact ih hrest hc2

theorem UCS_eq_nil {cur ns : List Secret}
    (h : ∀ d ∈ ns, ∃ c, findByName cur d.Name = some c
        ∧ d.EqualData c = true ∧ d.EqualTags c = true) :
    UpdateChangedSecrets cur ns = [] := by
  unfold UpdateChangedSecrets
  induction ns with
  | nil => rfl
  | cons d rest ih =>
    rw [List.flatMap_cons]
    obtain ⟨c, hfc, hd, ht⟩ := h d (List.mem_cons_self _ _)
    have hops : updateOpsFor cur d = [] := by
      simp [updateOpsFor, writeFlags, hfc, hd, ht]
    rw [hops, List.nil_append]
    exact ih (fun x hx => h x (List.mem_cons_of_mem _ hx))

theorem CRS_eq_nil {cur ns : List Secret}
    (h : ∀ c ∈ cur, ns.any (fun new => c.EqualName new) = true) :
    CleanRemovedSecrets cur ns = [] := by
  unfold CleanRemovedSecrets
  induction cur with
  | nil => rfl
  | cons c rest ih =>
    rw [List.filterMap_cons]
    have hc := h c (List.mem_cons_self _ _)
    rw [if_pos hc]
    exact ih (fun x hx => h x (List.mem_cons_of_mem _ hx))

/-! ## Claim C2: the effect of one run on the store, per path -/

theorem applyOps_append (st : Store) (ops1 ops2 : List Op) :
    applyOps st (ops1 ++ ops2) = applyOps (applyOps st ops1) ops2 := by
  unfold applyOps
  rw [List.foldl_append]

/-- The (data, tags) pair stored at a new secret's path after
`UpdateChangedSecrets` processed it, as a function of the pair stored
there before: first the conditional `putSecretData`, then the conditional
`putSecretMetadata`. -/
def pairAfter (cur : List Secret) (d : Secret) (old : Option (GoMap × GoMap)) :
    Option (GoMap × GoMap) :=
  let w := writeFlags cur d
  let o1 := if w.1 then some (d.Data, ((old.map (fun p => p.2)).getD [])) else old
  if w.2 then some (((o1.map (fun p => p.1)).getD []), d.Tags) else o1

theorem applyOps_updateOpsFor_get (cur : List Secret) (d : Secret) (st : Store) :
    storeGet (applyOps st (updateOpsFor cur d)) d.Name
      = pairAfter cur d (storeGet st d.Name) := by
  unfold updateOpsFor pairAfter
  cases hw : writeFlags cur d with
  | mk w1 w2 =>
    cases w1 <;> cases w2 <;>
      simp [applyOps, applyOp_putData_get, applyOp_putMeta_get]

theorem updateOpsFor_names (cur : List Secret) (d : Secret) :
    ∀ op ∈ updateOpsFor cur d, opName op = d.Name := by
  intro op hop
  unfold updateOpsFor at hop
  rcases List.mem_append.mp hop with h | h
  · by_cases hw : (writeFlags cur d).1 = true
    · rw [if_pos hw, List.mem_singleton] at h
      subst h
      rfl
    · rw [if_neg hw] at h
      simp at h
  · by_cases hw : (writeFlags cur d).2 = true
    · rw [if_pos hw, List.mem_singleton] at h
      subst h
      rfl
    · rw [if_neg hw] at h
      simp at h

theorem phaseA_get (cur : List Secret) (ds : List Secret)
    (hnd : (ds.map Secret.Name).Nodup) (st : Store) (n : String) :
    storeGet (applyOps st (ds.flatMap (updateOpsFor cur))) n
      = match ds.find? (fun d => decide (d.Name = n)) with
        | some d => pairAfter cur d (storeGet st n)
        | none => storeGet st n := by
  induction ds generalizing st with
  | nil => rfl
  | cons d rest ih =>
    rw [List.map_cons, List.nodup_cons] at hnd
    obtain ⟨hd1, hd2⟩ := hnd
    rw [List.flatMap_cons, applyOps_append]
    by_cases hn : d.Name = n
    · subst hn
      have hfind : rest.find? (fun x => decide (x.Name = d.Name)) = none := by
        rw [List.find?_eq_none]
        intro x hx hdx
        rw [decide_eq_true_eq] at hdx
        exact hd1 (by rw [← hdx]; exact List.mem_map_of_mem _ hx)
      rw [ih hd2, hfind, applyOps_updateOpsFor_get,
        List.find?_cons_of_pos _ (by rw [decide_eq_true_eq])]
    · have hops : ∀ op ∈ updateOpsFor cur d, opName op ≠ n := by
        intro op hop hopn
        exact hn ((updateOpsFor_names cur d op hop).symm.trans hopn)
      have hpres : storeGet (applyOps st (updateOpsFor cur d)) n = storeGet st n :=
        applyOps_get_other _ _ hops
      rw [ih hd2, hpres,
        @List.find?_cons_of_neg _ (fun x => decide (x.Name = n)) d rest
          (by rw [decide_eq_true_eq]; exact hn)]

theorem phaseB_get (cur des : List Secret) (st : Store) (n : String) :
    storeGet (applyOps st (CleanRemovedSecrets cur des)) n
      = if cur.any
            (fun c => decide (c.Name = n) && !des.any (fun new => c.EqualName new)) = true
        then none else storeGet st n := by
  induction cur generalizing st with
  | nil => simp [CleanRemovedSecrets, applyOps]
  | cons c rest ih =>
    by_cases hany : des.any (fun new => c.EqualName new) = true
    · have h1 : CleanRemovedSecrets (c :: rest) des = CleanRemovedSecrets rest des := by
        unfold CleanRemovedSecrets
        rw [List.filterMap_cons, if_pos hany]
      rw [h1, ih]
      have h2 : (decide (c.Name = n) && !des.any (fun new => c.EqualName new)) = false := by
        rw [hany]
        simp
      rw [List.any_cons, h2, Bool.false_or]
    · have h1 : CleanRemovedSecrets (c :: rest) des
          = Op.deleteMetadata c.Name :: CleanRemovedSecrets rest des := by
        unfold CleanRemovedSecrets
        rw [List.filterMap_cons, if_neg hany]
      have hna : des.any (fun new => c.EqualName new) = false := Bool.of_not_eq_true hany
      rw [h1]
      rw [show applyOps st (Op.deleteMetadata c.Name :: CleanRemovedSecrets rest des)
            = applyOps (applyOp st (Op.deleteMetadata c.Name)) (CleanRemovedSecrets rest des)
          from rfl]
      rw [ih]
      by_cases hn : c.Name = n
      · have hp : (decide (c.Name = n) && !des.any (fun new => c.EqualName new)) = true := by
          rw [hna, hn]
          simp
        rw [List.any_cons, hp, Bool.true_or, if_pos rfl]
        rw [applyOp_delete_get, if_pos hn.symm]
        by_cases hra : rest.any
            (fun c => decide (c.Name = n) && !des.any (fun new => c.EqualName new)) = true
        · rw [if_pos hra]
        · rw [if_neg hra]
      · have hp : (decide (c.Name = n) && !des.any (fun new => c.EqualName new)) = false := by
          rw [hna]
          simp [hn]
        rw [List.any_cons, hp, Bool.false_or]
        rw [applyOp_delete_get, if_neg (show ¬ n = c.Name from fun hh => hn hh.symm)]

theorem find?_name_of_mem {l : List Secret} (h : (l.map Secret.Name).Nodup) {d : Secret}
    (hd : d ∈ l) : l.find? (fun x => decide (x.Name = d.Name)) = some d := by
  induction l with
  | nil => cases hd
  | cons x rest ih =>
    rw [List.map_cons, List.nodup_cons] at h
    obtain ⟨hx, hrest⟩ := h
    rcases List.mem_cons.mp hd with rfl | hd2
    · rw [List.find?_cons_of_pos _ (by rw [decide_eq_true_eq])]
    · have hxd : ¬ (decide (x.Name = d.Name) = true) := by
        rw [decide_eq_true_eq]
        intro hh
        exact hx (by rw [hh]; exact List.mem_map_of_mem _ hd2)
      rw [@List.find?_cons_of_neg _ (fun s => decide (s.Name = d.Name)) x rest hxd]
      exact ih hrest hd2

theorem pairAfter_spec {store : Store} (hsd : (storeNames store).Nodup) (d : Secret)
    (hwfD : (d.Data.map Prod.fst).Nodup) (hwfT : (d.Tags.map Prod.fst).Nodup) :
    ∃ D1 T1,
      pairAfter (GetSecrets none store) d (storeGet store d.Name) = some (D1, T1)
      ∧ DeepEqual d.Data (addAll D1) = true
      ∧ DeepEqual d.Tags (addAll T1) = true := by
  have hDd : DeepEqual d.Data (addAll d.Data) = true :=
    DeepEqual_of_get (fun k => (mapGet_addAll hwfD k).symm)
  have hTd : DeepEqual d.Tags (addAll d.Tags) = true :=
    DeepEqual_of_get (fun k => (mapGet_addAll hwfT k).symm)
  cases hfc : findByName (GetSecrets none store) d.Name with
  | none =>
    refine ⟨d.Data, d.Tags, ?_, hDd, hTd⟩
    unfold pairAfter writeFlags
    rw [hfc]
    rfl
  | some c =>
    have hcmem : c ∈ GetSecrets none store := List.mem_of_find?_eq_some hfc
    have hpred := List.find?_some hfc
    rw [decide_eq_true_eq] at hpred
    obtain ⟨e, hestore, hsome, hceq⟩ := mem_GetSecrets_none_iff.mp hcmem
    have hcname : c.Name = e.1 := by rw [hceq]; rfl
    have hold : storeGet store d.Name = some e.2 := by
      rw [hpred, hcname]
      exact storeGet_of_mem hsd hestore
    have hcdata : c.Data = addAll e.2.1 := by rw [hceq]; rfl
    have hctags : c.Tags = addAll e.2.2 := by rw [hceq]; rfl
    unfold pairAfter writeFlags
    rw [hfc, hold]
    cases hq1 : d.EqualData c with
    | true =>
      have hD : DeepEqual d.Data (addAll e.2.1) = true := by
        rw [← hcdata]
        exact hq1
      cases hq2 : d.EqualTags c with
      | true =>
        have hT : DeepEqual d.Tags (addAll e.2.2) = true := by
          rw [← hctags]
          exact hq2
        refine ⟨e.2.1, e.2.2, ?_, hD, hT⟩
        simp [hq1, hq2]
      | false =>
        refine ⟨e.2.1, d.Tags, ?_, hD, hTd⟩
        simp [hq1, hq2]
    | false =>
      cases hq2 : d.EqualTags c with
      | true =>
        have hT : DeepEqual d.Tags (addAll e.2.2) = true := by
          rw [← hctags]
          exact hq2
        refine ⟨d.Data, e.2.2, ?_, hDd, hT⟩
        simp [hq1, hq2]
      | false =>
        refine ⟨d.Data, d.Tags, ?_, hDd, hTd⟩
        simp [hq1, hq2]

/-! ## Claim C2 -/

/-- Claim C2 (amended): reconciliation is idempotent for desired secrets
whose written form still resolves to an environment.  If the desired
secrets have pairwise distinct names, the destination's paths are
distinct, each desired secret's data and tag maps are well-formed Go maps
(no duplicate keys), and every desired secret — as it will be written,
i.e. its (already trimmed) name together with its tags — resolves to a
non-absent environment, then running the full reconciliation a second
time immediately after a completed first run performs zero secret-data
writes, zero tag writes and zero deletes.  (Without the resolvability
condition the second run re-creates the secret every time, see the
counterexample.) -/
theorem C2_idempotent :
    ∀ (ns : List Secret) (store : Store),
      (ns.map Secret.Name).Nodup →
      (storeNames store).Nodup →
      (∀ d ∈ ns, (d.Data.map Prod.fst).Nodup ∧ (d.Tags.map Prod.fst).Nodup) →
      (∀ d ∈ ns,
        ({ Name := d.Name, Data := d.Data, Environment := none, Tags := d.Tags }
            : Secret).SetEnv.Environment.isSome = true) →
      (UpdateSecrets ns (UpdateSecrets ns store).1).2 = [] := by
  intro ns store hnd hsd hwf hres
  have hs1nodup : (storeNames (UpdateSecrets ns store).1).Nodup :=
    storeNames_nodup_applyOps _ hsd
  have hget1 : ∀ n : String,
      storeGet (UpdateSecrets ns store).1 n
        = if (GetSecrets none store).any
              (fun c => decide (c.Name = n) && !ns.any (fun new => c.EqualName new)) = true
          then none
          else match ns.find? (fun x => decide (x.Name = n)) with
               | some d => pairAfter (GetSecrets none store) d (storeGet store n)
               | none => storeGet store n := by
    intro n
    show storeGet (applyOps store (UpdateChangedSecrets (GetSecrets none store) ns
        ++ CleanRemovedSecrets (GetSecrets none store) ns)) n = _
    rw [applyOps_append, phaseB_get,
      show UpdateChangedSecrets (GetSecrets none store) ns
        = ns.flatMap (updateOpsFor (GetSecrets none store)) from rfl,
      phaseA_get _ _ hnd]
  have hUCS : UpdateChangedSecrets (GetSecrets none (UpdateSecrets ns store).1) ns = [] := by
    apply UCS_eq_nil
    intro d hd
    obtain ⟨hwfD, hwfT⟩ := hwf d hd
    obtain ⟨D1, T1, hpair, hD, hT⟩ := pairAfter_spec hsd d hwfD hwfT
    have hBfalse : (GetSecrets none store).any
        (fun c => decide (c.Name = d.Name) && !ns.any (fun new => c.EqualName new)) = false := by
      rw [List.any_eq_false]
      intro c hc hp
      rw [Bool.and_eq_true] at hp
      obtain ⟨hp1, hp2⟩ := hp
      rw [decide_eq_true_eq] at hp1
      have hta : ns.any (fun new => c.EqualName new) = true := by
        rw [List.any_eq_true]
        refine ⟨d, hd, ?_⟩
        unfold Secret.EqualName
        rw [decide_eq_true_eq]
        exact hp1
      rw [hta] at hp2
      simp at hp2
    have hfind : ns.find? (fun x => decide (x.Name = d.Name)) = some d :=
      find?_name_of_mem hnd hd
    have hg : storeGet (UpdateSecrets ns store).1 d.Name = some (D1, T1) := by
      rw [hget1 d.Name, if_neg (by simp [hBfalse]), hfind]
      exact hpair
    have hmem1 : (d.Name, (D1, T1)) ∈ (UpdateSecrets ns store).1 := mem_of_storeGet hg
    have hresd := hres d hd
    rw [SetEnv_Environment] at hresd
    have henv : ((getSecretOk d.Name (D1, T1)).SetEnv).Environment.isSome = true := by
      have hcongr : (getSecretOk d.Name (D1, T1)).GetEnv
          = ({ Name := d.Name, Data := d.Data, Environment := none, Tags := d.Tags }
              : Secret).GetEnv := by
        apply @GetEnv_congr (getSecretOk d.Name (D1, T1))
          { Name := d.Name, Data := d.Data, Environment := none, Tags := d.Tags } rfl rfl rfl
        intro k
        exact (DeepEqual_norm_get hT k).symm
      rw [SetEnv_Environment, hcongr]
      exact hresd
    have hc2mem : (getSecretOk d.Name (D1, T1)).SetEnv
        ∈ GetSecrets none (UpdateSecrets ns store).1 :=
      mem_GetSecrets_none_iff.mpr ⟨(d.Name, (D1, T1)), hmem1, henv, rfl⟩
    have hcur2names : ((GetSecrets none (UpdateSecrets ns store).1).map Secret.Name).Nodup :=
      (GetSecrets_none_names_sublist _).nodup hs1nodup
    have hfind2 : findByName (GetSecrets none (UpdateSecrets ns store).1) d.Name
        = some ((getSecretOk d.Name (D1, T1)).SetEnv) :=
      findByName_of_mem hcur2names hc2mem
    refine ⟨_, hfind2, ?_, ?_⟩
    · exact hD
    · exact hT
  have hCRS : CleanRemovedSecrets (GetSecrets none (UpdateSecrets ns store).1) ns = [] := by
    apply CRS_eq_nil
    intro c hc
    obtain ⟨e, hestore1, hsome, hceq⟩ := mem_GetSecrets_none_iff.mp hc
    by_contra hnone
    have hany : ns.any (fun new => c.EqualName new) = false := Bool.of_not_eq_true hnone
    have hany2 := List.any_eq_false.mp hany
    have hcname : c.Name = e.1 := by rw [hceq]; rfl
    have hnames : ∀ x ∈ ns, ¬ (decide (x.Name = e.1) = true) := by
      intro x hx hdx
      rw [decide_eq_true_eq] at hdx
      apply hany2 x hx
      unfold Secret.EqualName
      rw [decide_eq_true_eq, hcname]
      exact hdx.symm
    have hfne : ns.find? (fun x => decide (x.Name = e.1)) = none :=
      List.find?_eq_none.mpr hnames
    have hge := storeGet_of_mem hs1nodup hestore1
    rw [hget1 e.1, hfne] at hge
    by_cases hcond : (GetSecrets none store).any
        (fun c0 => decide (c0.Name = e.1) && !ns.any (fun new => c0.EqualName new)) = true
    · rw [if_pos hcond] at hge
      simp at hge
    · rw [if_neg hcond] at hge
      have hge2 : storeGet store e.1 = some e.2 := hge
      have hestore : e ∈ store := mem_of_storeGet hge2
      have hc1 : c ∈ GetSecrets none store :=
        mem_GetSecrets_none_iff.mpr ⟨e, hestore, hsome, hceq⟩
      apply hcond
      rw [List.any_eq_true]
      refine ⟨c, hc1, ?_⟩
      rw [Bool.and_eq_true]
      refine ⟨by rw [decide_eq_true_eq]; exact hcname, ?_⟩
      rw [hany]
      rfl
  show UpdateChangedSecrets (GetSecrets none (UpdateSecrets ns store).1) ns
      ++ CleanRemovedSecrets (GetSecrets none (UpdateSecrets ns store).1) ns = []
  rw [hUCS, hCRS]
  rfl

/-- Witness for claim C2 (amended): one desired secret carrying an
`Environment` tag, synced twice into an empty destination — the second
run performs no operation. -/
theorem C2_witness :
    (UpdateSecrets
        [{ Name := "db", Data := [("x", GoVal.vStr "1")], Environment := some DevEnv,
           Tags := [("Environment", GoVal.vStr "dev")] }]
        (UpdateSecrets
          [{ Name := "db", Data := [("x", GoVal.vStr "1")], Environment := some DevEnv,
             Tags := [("Environment", GoVal.vStr "dev")] }] []).1).2 = [] :=
  C2_idempotent _ [] (by decide) (by decide) (by decide) (by decide)

/-- Counterexample to claim C2 as stated: a desired secret whose name
carries no environment suffix and which has no `Environment` tag (as
produced by trim-on-sync from `"db-dev"` against target `dev`).  After a
completed first run into an empty destination, the second run fetches a
`current` list that misses the secret (its written form resolves to
absent), so it writes the data and the tags again: the second run
performs two writes, not zero. -/
theorem C2_counterexample :
    (UpdateSecrets
        [{ Name := "db", Data := [("x", GoVal.vStr "1")], Environment := some DevEnv,
           Tags := [] }]
        (UpdateSecrets
          [{ Name := "db", Data := [("x", GoVal.vStr "1")], Environment := some DevEnv,
             Tags := [] }] []).1).2
      = [Op.putData "db" [("x", GoVal.vStr "1")], Op.putMeta "db" []]
    ∧ (UpdateSecrets
        [{ Name := "db", Data := [("x", GoVal.vStr "1")], Environment := some DevEnv,
           Tags := [] }]
        (UpdateSecrets
          [{ Name := "db", Data := [("x", GoVal.vStr "1")], Environment := some DevEnv,
             Tags := [] }] []).1).2 ≠ [] :=
  ⟨by decide, by decide⟩

end SecretSync
